import Mathlib

/-!
Shallow embedding of the EAD description-to-NodeList conversion
(`hub3/ead/ead.go`): the recursive `NewNode` descent over nested
archival components, header resolution (`NewHeader`, `NewNodeIDs`,
`NewNodeID`, `NewNodeDate`) and the top-level `newSparseNodeList`.

The twelve per-depth Go functions `Cc01.NewNode` … `Cc12.NewNode` are
textually identical up to the root special case (`Cc01` receives no
`parentIDs` and stores none, which coincides with passing the empty
chain), so the component tree is embedded as one recursive type `Cc`
and one recursive conversion function; the root entry point passes the
empty parent chain.

Machine integers: the Go counter is a `uint64` incremented once per
produced node and the depth an `int32` equal to the parent-chain length
plus one; neither can approach its wrap-around bound on any tree that
fits in memory, so both are embedded as `Nat`.

`xml.Marshal` of a scope-content block is external library code; the
conversion is parameterised by a `marshal` function that may fail, as
the Go call site allows.
-/

/-- Embedding of the Go `Cunitid` struct (unitid element). -/
structure Cunitid where
  ID : String
  Attridentifier : String
  Attrtype : String
  Attraudience : String
deriving Repr, DecidableEq

/-- Embedding of the protobuf `NodeID` message. -/
structure NodeID where
  ID : String
  TypeID : String
  Type_ : String
  Audience : String
deriving Repr, DecidableEq

/-- Embedding of the Go `Cunitdate` struct (unitdate element). -/
structure Cunitdate where
  Attrcalendar : String
  Attrera : String
  Attrnormal : String
  Date : String
deriving Repr, DecidableEq

/-- Embedding of the protobuf `NodeDate` message. -/
structure NodeDate where
  Calendar : String
  Era : String
  Normal : String
  Label : String
deriving Repr, DecidableEq

/-- Embedding of the Go `Cunittitle` struct: a title with optional nested dates. -/
structure Cunittitle where
  Title : String
  Cunitdate : List Cunitdate
deriving Repr, DecidableEq

/-- Embedding of the Go `Cdid` struct (identification block).
`Cphysdesc` stands for the optional `*Cphysdesc` pointer, carrying its
`PhyscDesc` string when present. -/
structure Cdid where
  Cphysdesc : Option String
  Cunittitle : List Cunittitle
  Cunitdate : List Cunitdate
  Cunitid : List Cunitid
deriving Repr, DecidableEq

/-- Embedding of the protobuf `Header` message; zero values as in Go. -/
structure Header where
  Physdesc : String := ""
  Label : List String := []
  Date : List NodeDate := []
  DateAsLabel : Bool := false
  ID : List NodeID := []
  InventoryNumber : String := ""
deriving Repr, DecidableEq

/-- One level of the source component hierarchy: the common shape of the
Go `Cc01` … `Cc12` structs (`XMLName.Local`, `Attrlevel`,
`Attrotherlevel`, the `Cdid`, the optional `Cscopecontent` whose `Cp`
content is kept opaque, and the nested children). -/
inductive Cc where
  | mk (xmlname : String) (attrlevel : String) (attrotherlevel : String)
       (did : Cdid) (scope : Option String) (nested : List Cc)
deriving Repr

def Cc.xmlname : Cc → String
  | .mk x _ _ _ _ _ => x

def Cc.attrlevel : Cc → String
  | .mk _ l _ _ _ _ => l

def Cc.attrotherlevel : Cc → String
  | .mk _ _ ol _ _ _ => ol

def Cc.did : Cc → Cdid
  | .mk _ _ _ d _ _ => d

def Cc.scope : Cc → Option String
  | .mk _ _ _ _ s _ => s

def Cc.nested : Cc → List Cc
  | .mk _ _ _ _ _ ns => ns

/-- Embedding of a `Chead` element of the `Cdsc`. -/
structure Chead where
  Head : String
deriving Repr, DecidableEq

/-- Embedding of the Go `Cdsc` struct: the top-level description. -/
structure Cdsc where
  Attrtype : String
  Chead : List Chead
  Nested : List Cc
deriving Repr

/-- Embedding of the protobuf `Node` message produced by `NewNode`. -/
inductive Node where
  | mk (ctag : String) (depth : Nat) (typ subtyp : String)
       (parentIDs : List String) (order : Nat) (header : Header)
       (html : String) (nodes : List Node)
deriving Repr

def Node.CTag : Node → String
  | .mk ct _ _ _ _ _ _ _ _ => ct

def Node.Depth : Node → Nat
  | .mk _ d _ _ _ _ _ _ _ => d

def Node.Type_ : Node → String
  | .mk _ _ t _ _ _ _ _ _ => t

def Node.SubType : Node → String
  | .mk _ _ _ st _ _ _ _ _ => st

def Node.ParentIDs : Node → List String
  | .mk _ _ _ _ p _ _ _ _ => p

def Node.Order : Node → Nat
  | .mk _ _ _ _ _ o _ _ _ => o

def Node.Header : Node → Header
  | .mk _ _ _ _ _ _ h _ _ => h

def Node.HTML : Node → String
  | .mk _ _ _ _ _ _ _ html _ => html

def Node.Nodes : Node → List Node
  | .mk _ _ _ _ _ _ _ _ ns => ns

/-- Embedding of the protobuf `NodeList` message. -/
structure NodeList where
  Type_ : String
  Label : List String
  Nodes : List Node
deriving Repr

/-- Go `Cunitid.NewNodeID`: verbatim projection, never fails. -/
def Cunitid.NewNodeID (ui : Cunitid) : Except String NodeID :=
  .ok { ID := ui.ID, TypeID := ui.Attridentifier, Type_ := ui.Attrtype,
        Audience := ui.Attraudience }

/-- The loop body of Go `Cdid.NewNodeIDs`, threading the accumulated id
list and the inventory number through the `range` loop. The `switch`
on `id.GetType()` matches `"ABS"`, `"series_code"` and `""`. -/
def nodeIDsLoop (sparse : Bool) :
    List Cunitid → List NodeID → String → Except String (List NodeID × String)
  | [], ids, inv => .ok (ids, inv)
  | u :: us, ids, inv =>
    match u.NewNodeID with
    | .error e => .error e
    | .ok id =>
      let inv' := if id.Type_ = "ABS" ∨ id.Type_ = "series_code" ∨ id.Type_ = ""
        then id.ID else inv
      nodeIDsLoop sparse us (if sparse then ids else ids ++ [id]) inv'

/-- Go `Cdid.NewNodeIDs`: extracts the unit identifiers and the resolved
inventory number. -/
def Cdid.NewNodeIDs (cdid : Cdid) (sparse : Bool) :
    Except String (List NodeID × String) :=
  nodeIDsLoop sparse cdid.Cunitid [] ""

/-- Go `Cunitdate.NewNodeDate`: verbatim projection, never fails. -/
def Cunitdate.NewNodeDate (date : Cunitdate) : Except String NodeDate :=
  .ok { Calendar := date.Attrcalendar, Era := date.Attrera,
        Normal := date.Attrnormal, Label := date.Date }

/-- Inner date loop of Go `Cdid.NewHeader` for a title carrying dates:
in sparse mode the date label is appended to `Label` and `DateAsLabel`
reset to `false`; in full mode the structured date is appended to
`Date`. -/
def titleDateLoop (sparse : Bool) :
    List Cunitdate → Header → Except String Header
  | [], h => .ok h
  | d :: ds, h =>
    match d.NewNodeDate with
    | .error e => .error e
    | .ok nodeDate =>
      match sparse with
      | true => titleDateLoop sparse ds
          { h with Label := h.Label ++ [nodeDate.Label], DateAsLabel := false }
      | false => titleDateLoop sparse ds { h with Date := h.Date ++ [nodeDate] }

/-- Title loop of Go `Cdid.NewHeader`: a title with nested dates first
sets `DateAsLabel := true` and then runs the inner date loop; a title
without dates appends its plain text to `Label`. -/
def titleLoop (sparse : Bool) :
    List Cunittitle → Header → Except String Header
  | [], h => .ok h
  | t :: ts, h =>
    match t.Cunitdate with
    | [] => titleLoop sparse ts { h with Label := h.Label ++ [t.Title] }
    | d :: ds =>
      match titleDateLoop sparse (d :: ds) { h with DateAsLabel := true } with
      | .error e => .error e
      | .ok h' => titleLoop sparse ts h'

/-- Direct (non-title-nested) date loop of Go `Cdid.NewHeader`, run in
full mode only. -/
def directDateLoop : List Cunitdate → Header → Except String Header
  | [], h => .ok h
  | d :: ds, h =>
    match d.NewNodeDate with
    | .error e => .error e
    | .ok nodeDate => directDateLoop ds { h with Date := h.Date ++ [nodeDate] }

/-- Go `Cdid.NewHeader`: builds the archival header from the
identification block. -/
def Cdid.NewHeader (cdid : Cdid) (sparse : Bool) : Except String Header :=
  let header : Header := {}
  let header := match cdid.Cphysdesc, sparse with
    | some p, false => { header with Physdesc := p }
    | _, _ => header
  match titleLoop sparse cdid.Cunittitle header with
  | .error e => .error e
  | .ok header =>
    match (if !sparse then directDateLoop cdid.Cunitdate header else .ok header) with
    | .error e => .error e
    | .ok header =>
      match cdid.NewNodeIDs sparse with
      | .error e => .error e
      | .ok (nodeIDs, inventoryID) =>
        let header := if inventoryID ≠ "" then
          { header with InventoryNumber := inventoryID } else header
        .ok { header with ID := header.ID ++ nodeIDs }

/-- The scope-content step of `NewNode`: in full mode with a scope
block present, serialize it (this is the only fallible step); otherwise
the node's `HTML` stays the zero value. -/
def marshalScope (marshal : String → Except String String) (sparse : Bool) :
    Option String → Except String String
  | some cp => if sparse then .ok "" else marshal cp
  | none => .ok ""

mutual
/-- Go `CcNN.NewNode` (all twelve are this function): assign the next
counter value as `order`, depth from the parent chain, copy the level
attributes, clear the tag in sparse mode, resolve the header, marshal
the scope content in full mode, and recurse into the nested children
with the current node's inventory number appended to the chain. -/
def newNode (marshal : String → Except String String) (sparse : Bool) :
    Cc → List String → Nat → Except String (Node × Nat)
  | .mk xmlname lvl olvl did scope nested, parentIDs, counter =>
    let order := counter + 1
    let ctag := if sparse then "" else xmlname
    match did.NewHeader sparse with
    | .error e => .error e
    | .ok header =>
      match marshalScope marshal sparse scope with
      | .error e => .error e
      | .ok html =>
        match newNodes marshal sparse nested
            (parentIDs ++ [header.InventoryNumber]) order with
        | .error e => .error e
        | .ok (children, counter') =>
          .ok (.mk ctag (parentIDs.length + 1) lvl olvl parentIDs order
                header html children, counter')

/-- The child loop shared by `newSparseNodeList` and every `NewNode`:
convert the children in source order, threading the counter, appending
each resulting node; any error aborts the loop. -/
def newNodes (marshal : String → Except String String) (sparse : Bool) :
    List Cc → List String → Nat → Except String (List Node × Nat)
  | [], _, counter => .ok ([], counter)
  | c :: cs, parentIDs, counter =>
    match newNode marshal sparse c parentIDs counter with
    | .error e => .error e
    | .ok (n, counter₁) =>
      match newNodes marshal sparse cs parentIDs counter₁ with
      | .error e => .error e
      | .ok (ns, counter₂) => .ok (n :: ns, counter₂)
end

/-- Go `Cdsc.newSparseNodeList`: build the `NodeList` container, run the
root components with a fresh counter and the empty parent chain, and
return the final counter value. -/
def Cdsc.newSparseNodeList (dsc : Cdsc)
    (marshal : String → Except String String) (sparse : Bool) :
    Except String (NodeList × Nat) :=
  let labels := dsc.Chead.map Chead.Head
  match newNodes marshal sparse dsc.Nested [] 0 with
  | .error e => .error e
  | .ok (nodes, counter) =>
    .ok ({ Type_ := dsc.Attrtype, Label := labels, Nodes := nodes }, counter)

/-- Go `Cdsc.NewNodeList`: the full-fidelity entry point. -/
def Cdsc.NewNodeList (dsc : Cdsc) (marshal : String → Except String String) :
    Except String (NodeList × Nat) :=
  dsc.newSparseNodeList marshal false

/-- Go `Cdsc.NewSparseNodeList`: the sparse entry point. -/
def Cdsc.NewSparseNodeList (dsc : Cdsc) (marshal : String → Except String String) :
    Except String (NodeList × Nat) :=
  dsc.newSparseNodeList marshal true

/-! ### Pure mirrors of the header computation

Every error branch inside the header resolution is a propagation of a
`NewNodeID` / `NewNodeDate` result, and both of those are `.ok`
constructors, so header resolution is total. The pure mirrors below
compute the same values and are proven equal to the fallible versions.
-/

/-- The value `Cunitid.NewNodeID` always succeeds with. -/
def mkNodeID (ui : Cunitid) : NodeID :=
  { ID := ui.ID, TypeID := ui.Attridentifier, Type_ := ui.Attrtype,
    Audience := ui.Attraudience }

/-- The value `Cunitdate.NewNodeDate` always succeeds with. -/
def mkNodeDate (date : Cunitdate) : NodeDate :=
  { Calendar := date.Attrcalendar, Era := date.Attrera,
    Normal := date.Attrnormal, Label := date.Date }

/-- Pure mirror of `nodeIDsLoop`. -/
def nodeIDsFold (sparse : Bool) :
    List Cunitid → List NodeID → String → List NodeID × String
  | [], ids, inv => (ids, inv)
  | u :: us, ids, inv =>
    let id := mkNodeID u
    let inv' := if id.Type_ = "ABS" ∨ id.Type_ = "series_code" ∨ id.Type_ = ""
      then id.ID else inv
    nodeIDsFold sparse us (if sparse then ids else ids ++ [id]) inv'

/-- Pure mirror of `titleDateLoop`. -/
def titleDateFold (sparse : Bool) : List Cunitdate → Header → Header
  | [], h => h
  | d :: ds, h =>
    let nodeDate := mkNodeDate d
    match sparse with
    | true => titleDateFold sparse ds
        { h with Label := h.Label ++ [nodeDate.Label], DateAsLabel := false }
    | false => titleDateFold sparse ds { h with Date := h.Date ++ [nodeDate] }

/-- Pure mirror of `titleLoop`. -/
def titleFold (sparse : Bool) : List Cunittitle → Header → Header
  | [], h => h
  | t :: ts, h =>
    match t.Cunitdate with
    | [] => titleFold sparse ts { h with Label := h.Label ++ [t.Title] }
    | d :: ds =>
      titleFold sparse ts (titleDateFold sparse (d :: ds) { h with DateAsLabel := true })

/-- Pure mirror of `directDateLoop`. -/
def directDateFold : List Cunitdate → Header → Header
  | [], h => h
  | d :: ds, h => directDateFold ds { h with Date := h.Date ++ [mkNodeDate d] }

/-- Pure mirror of `Cdid.NewHeader`. -/
def mkHeader (cdid : Cdid) (sparse : Bool) : Header :=
  let header : Header := {}
  let header := match cdid.Cphysdesc, sparse with
    | some p, false => { header with Physdesc := p }
    | _, _ => header
  let header := titleFold sparse cdid.Cunittitle header
  let header := if !sparse then directDateFold cdid.Cunitdate header else header
  let (nodeIDs, inventoryID) := nodeIDsFold sparse cdid.Cunitid [] ""
  let header := if inventoryID ≠ "" then
    { header with InventoryNumber := inventoryID } else header
  { header with ID := header.ID ++ nodeIDs }

theorem nodeIDsLoop_eq (sparse : Bool) (us : List Cunitid) :
    ∀ ids inv, nodeIDsLoop sparse us ids inv = .ok (nodeIDsFold sparse us ids inv) := by
  induction us with
  | nil => intro ids inv; rfl
  | cons u us ih => intro ids inv; simp [nodeIDsLoop, nodeIDsFold, Cunitid.NewNodeID, mkNodeID, ih]

theorem titleDateLoop_eq (sparse : Bool) (ds : List Cunitdate) :
    ∀ h, titleDateLoop sparse ds h = .ok (titleDateFold sparse ds h) := by
  induction ds with
  | nil => intro h; rfl
  | cons d ds ih =>
    intro h
    cases sparse <;> simp [titleDateLoop, titleDateFold, Cunitdate.NewNodeDate, mkNodeDate, ih]

theorem titleLoop_eq (sparse : Bool) (ts : List Cunittitle) :
    ∀ h, titleLoop sparse ts h = .ok (titleFold sparse ts h) := by
  induction ts with
  | nil => intro h; rfl
  | cons t ts ih =>
    intro h
    cases hds : t.Cunitdate with
    | nil => simp [titleLoop, titleFold, hds, ih]
    | cons d ds => simp [titleLoop, titleFold, hds, titleDateLoop_eq, ih]

theorem directDateLoop_eq (ds : List Cunitdate) :
    ∀ h, directDateLoop ds h = .ok (directDateFold ds h) := by
  induction ds with
  | nil => intro h; rfl
  | cons d ds ih =>
    intro h; simp [directDateLoop, directDateFold, Cunitdate.NewNodeDate, mkNodeDate, ih]

/-- `Cdid.NewHeader` always succeeds, with the value computed by the
pure mirror `mkHeader`. -/
theorem NewHeader_ok (cdid : Cdid) (sparse : Bool) :
    cdid.NewHeader sparse = .ok (mkHeader cdid sparse) := by
  cases sparse <;>
    simp [Cdid.NewHeader, mkHeader, titleLoop_eq, directDateLoop_eq,
      Cdid.NewNodeIDs, nodeIDsLoop_eq]

/-! ### Subtree enumeration -/

mutual
/-- All nodes of a produced subtree, the root first, children in order
(pre-order listing). -/
def subtreeNodes : Node → List Node
  | .mk ct d t st p o h html ns => .mk ct d t st p o h html ns :: subtreeAll ns

/-- Pre-order listing of a forest of produced nodes. -/
def subtreeAll : List Node → List Node
  | [] => []
  | n :: ns => subtreeNodes n ++ subtreeAll ns
end

theorem subtreeNodes_def (n : Node) : subtreeNodes n = n :: subtreeAll n.Nodes := by
  cases n; rfl

theorem mem_subtreeAll {m : Node} {ns : List Node} :
    m ∈ subtreeAll ns ↔ ∃ n ∈ ns, m ∈ subtreeNodes n := by
  induction ns with
  | nil => simp [subtreeAll]
  | cons n ns ih => simp [subtreeAll, ih, List.mem_append, or_and_right, exists_or]

theorem self_mem_subtreeNodes (n : Node) : n ∈ subtreeNodes n := by
  rw [subtreeNodes_def]; exact List.mem_cons_self _ _

/-- Pairwise ordering of sibling subtrees: everything in an earlier
sibling's subtree has a smaller `order` than everything in a later
sibling's subtree. -/
def sibSubtreesOrdered (ns : List Node) : Prop :=
  List.Pairwise (fun a b => ∀ x ∈ subtreeNodes a, ∀ y ∈ subtreeNodes b,
    x.Order < y.Order) ns

/-- Every node of the subtree dominates its descendants' orders and has
order-separated sibling subtrees beneath it. -/
def goodTree (n : Node) : Prop :=
  ∀ m ∈ subtreeNodes n,
    (∀ d ∈ subtreeAll m.Nodes, m.Order < d.Order) ∧ sibSubtreesOrdered m.Nodes

/-! ### The counting lemma behind the ordering invariant -/

mutual
/-- A successful `newNode` run started at counter value `cnt` lists the
orders of its subtree, in pre-order, as exactly the consecutive range
`cnt+1, …, cnt'`. -/
theorem newNode_orderSpec (marshal : String → Except String String) (sparse : Bool)
    (c : Cc) : ∀ pids cnt n cnt',
    newNode marshal sparse c pids cnt = .ok (n, cnt') →
    (subtreeNodes n).map Node.Order = List.range' (cnt + 1) (cnt' - cnt) ∧
      cnt < cnt' ∧ goodTree n := by
  cases c with
  | mk xmlname lvl olvl did scope nested =>
    intro pids cnt n cnt' h
    rw [newNode, NewHeader_ok] at h
    simp only at h
    cases hm : marshalScope marshal sparse scope with
    | error e => rw [hm] at h; exact absurd h (by simp)
    | ok html =>
      rw [hm] at h
      simp only at h
      cases hrec : newNodes marshal sparse nested
          (pids ++ [(mkHeader did sparse).InventoryNumber]) (cnt + 1) with
      | error e => rw [hrec] at h; exact absurd h (by simp)
      | ok res =>
        obtain ⟨children, cnt₂⟩ := res
        rw [hrec] at h
        simp only [Except.ok.injEq, Prod.mk.injEq] at h
        obtain ⟨hn, hc⟩ := h
        subst hc
        have ih := newNodes_orderSpec marshal sparse nested
          (pids ++ [(mkHeader did sparse).InventoryNumber]) (cnt + 1) children cnt₂ hrec
        obtain ⟨ihList, ihLe, ihGood, ihSib⟩ := ih
        subst hn
        have hcnt : cnt < cnt₂ := by omega
        refine ⟨?_, hcnt, ?_⟩
        · rw [subtreeNodes_def]
          simp only [Node.Nodes, List.map_cons, Node.Order, ihList]
          have hrange : List.range' (cnt + 1) (cnt₂ - cnt) =
              (cnt + 1) :: List.range' (cnt + 2) (cnt₂ - (cnt + 1)) := by
            have h1 : cnt₂ - cnt = (cnt₂ - (cnt + 1)) + 1 := by omega
            rw [h1, List.range'_succ]
          rw [hrange]
        · intro m hmem
          rw [subtreeNodes_def] at hmem
          simp only [Node.Nodes, List.mem_cons] at hmem
          rcases hmem with rfl | hmem
          · constructor
            · intro d hd
              have hd' : d ∈ subtreeAll children := by simpa [Node.Nodes] using hd
              have hmm : d.Order ∈ (subtreeAll children).map Node.Order :=
                List.mem_map_of_mem Node.Order hd'
              rw [ihList] at hmm
              have hb := (List.mem_range'_1).mp hmm
              show cnt + 1 < d.Order
              omega
            · show sibSubtreesOrdered children
              exact ihSib
          · obtain ⟨root, hroot, hmroot⟩ := mem_subtreeAll.mp hmem
            exact ihGood root hroot m hmroot

/-- A successful `newNodes` run over a sibling list started at counter
value `cnt` lists the orders of all subtrees, in pre-order, as exactly
the consecutive range `cnt+1, …, cnt'`. -/
theorem newNodes_orderSpec (marshal : String → Except String String) (sparse : Bool)
    (cs : List Cc) : ∀ pids cnt ns cnt',
    newNodes marshal sparse cs pids cnt = .ok (ns, cnt') →
    (subtreeAll ns).map Node.Order = List.range' (cnt + 1) (cnt' - cnt) ∧
      cnt ≤ cnt' ∧ (∀ n ∈ ns, goodTree n) ∧ sibSubtreesOrdered ns := by
  cases cs with
  | nil =>
    intro pids cnt ns cnt' h
    rw [newNodes] at h
    simp only [Except.ok.injEq, Prod.mk.injEq] at h
    obtain ⟨hn, hc⟩ := h
    subst hn; subst hc
    simp [subtreeAll, sibSubtreesOrdered]
  | cons c cs =>
    intro pids cnt ns cnt' h
    rw [newNodes] at h
    cases h1 : newNode marshal sparse c pids cnt with
    | error e => rw [h1] at h; exact absurd h (by simp)
    | ok res =>
      obtain ⟨n, cnt₁⟩ := res
      rw [h1] at h
      simp only at h
      cases h2 : newNodes marshal sparse cs pids cnt₁ with
      | error e => rw [h2] at h; exact absurd h (by simp)
      | ok res₂ =>
        obtain ⟨ms, cnt₂⟩ := res₂
        rw [h2] at h
        simp only [Except.ok.injEq, Prod.mk.injEq] at h
        obtain ⟨hns, hcc⟩ := h
        subst hns; subst hcc
        obtain ⟨hList₁, hlt₁, hgood₁⟩ := newNode_orderSpec marshal sparse c pids cnt n cnt₁ h1
        obtain ⟨hList₂, hle₂, hgood₂, hsib₂⟩ :=
          newNodes_orderSpec marshal sparse cs pids cnt₁ ms cnt₂ h2
        refine ⟨?_, by omega, ?_, ?_⟩
        · show ((subtreeNodes n ++ subtreeAll ms).map Node.Order) = _
          rw [List.map_append, hList₁, hList₂]
          have happ := List.range'_append_1 (cnt + 1) (cnt₁ - cnt) (cnt₂ - cnt₁)
          have e1 : cnt + 1 + (cnt₁ - cnt) = cnt₁ + 1 := by omega
          have e2 : cnt₂ - cnt₁ + (cnt₁ - cnt) = cnt₂ - cnt := by omega
          rw [e1, e2] at happ
          exact happ
        · intro m hm
          rcases List.mem_cons.mp hm with rfl | hm
          · exact hgood₁
          · exact hgood₂ m hm
        · refine List.Pairwise.cons ?_ hsib₂
          intro b hb x hx y hy
          have hxo : x.Order ∈ List.range' (cnt + 1) (cnt₁ - cnt) := by
            rw [← hList₁]; exact List.mem_map_of_mem Node.Order hx
          have hyo : y.Order ∈ List.range' (cnt₁ + 1) (cnt₂ - cnt₁) := by
            rw [← hList₂]
            exact List.mem_map_of_mem Node.Order (mem_subtreeAll.mpr ⟨b, hb, hy⟩)
          have hx' := (List.mem_range'_1).mp hxo
          have hy' := (List.mem_range'_1).mp hyo
          omega
end

/-! ### Example inputs (the end-to-end scenario of the specification) -/

/-- A marshal function that serializes every scope block verbatim. -/
def exMarshal : String → Except String String := fun s => .ok s

/-- Identification block of the example root: one title, one ABS identifier. -/
def exDid1 : Cdid :=
  { Cphysdesc := none, Cunittitle := [⟨"Letters", []⟩], Cunitdate := [],
    Cunitid := [⟨"S1", "", "ABS", ""⟩] }

/-- Identification block of the example child: one title, no identifiers. -/
def exDid2 : Cdid :=
  { Cphysdesc := none, Cunittitle := [⟨"Letter 1", []⟩], Cunitdate := [],
    Cunitid := [] }

/-- The nested example component (level "file"). -/
def exChild : Cc := .mk "c02" "file" "" exDid2 none []

/-- The root example component (level "series") with one nested child. -/
def exRoot : Cc := .mk "c01" "series" "" exDid1 none [exChild]

/-- The example top-level description. -/
def exDsc : Cdsc := { Attrtype := "combined", Chead := [⟨"Inventory"⟩], Nested := [exRoot] }

/-- The full-mode conversion result of the example description. -/
def exNlFull : NodeList :=
  { Type_ := "combined", Label := ["Inventory"],
    Nodes := [Node.mk "c01" 1 "series" "" [] 1
      { Physdesc := "", Label := ["Letters"], Date := [], DateAsLabel := false,
        ID := [{ ID := "S1", TypeID := "", Type_ := "ABS", Audience := "" }],
        InventoryNumber := "S1" } ""
      [Node.mk "c02" 2 "file" "" ["S1"] 2
        { Physdesc := "", Label := ["Letter 1"], Date := [], DateAsLabel := false,
          ID := [], InventoryNumber := "" } "" []]] }

/-- The sparse-mode conversion result of the example description. -/
def exNlSparse : NodeList :=
  { Type_ := "combined", Label := ["Inventory"],
    Nodes := [Node.mk "" 1 "series" "" [] 1
      { Physdesc := "", Label := ["Letters"], Date := [], DateAsLabel := false,
        ID := [], InventoryNumber := "S1" } ""
      [Node.mk "" 2 "file" "" ["S1"] 2
        { Physdesc := "", Label := ["Letter 1"], Date := [], DateAsLabel := false,
          ID := [], InventoryNumber := "" } "" []]] }

/-- C1. For every input description tree on which conversion succeeds,
the multiset of `order` values over all produced nodes is exactly
`{1, …, totalNodeCount}` (their pre-order listing is the range
`1, …, totalNodeCount`, hence no gaps or repeats), the assignment is
pre-order (each node's order is below every order in its descendant
subtrees, and sibling subtrees at every level are order-separated in
list order), and `totalNodeCount` equals the number of produced nodes. -/
theorem claim_C1_ordering (marshal : String → Except String String) (sparse : Bool)
    (dsc : Cdsc) (nl : NodeList) (total : Nat)
    (h : dsc.newSparseNodeList marshal sparse = .ok (nl, total)) :
    ((subtreeAll nl.Nodes).map Node.Order).Perm (List.range' 1 total) ∧
    total = (subtreeAll nl.Nodes).length ∧
    sibSubtreesOrdered nl.Nodes ∧
    ∀ n ∈ subtreeAll nl.Nodes,
      (∀ d ∈ subtreeAll n.Nodes, n.Order < d.Order) ∧ sibSubtreesOrdered n.Nodes := by
  rw [Cdsc.newSparseNodeList] at h
  cases hrec : newNodes marshal sparse dsc.Nested [] 0 with
  | error e => rw [hrec] at h; exact absurd h (by simp)
  | ok res =>
    obtain ⟨nodes, counter⟩ := res
    rw [hrec] at h
    simp only [Except.ok.injEq, Prod.mk.injEq] at h
    obtain ⟨hnl, hcount⟩ := h
    obtain ⟨hList, _, hgood, hsib⟩ :=
      newNodes_orderSpec marshal sparse dsc.Nested [] 0 nodes counter hrec
    subst hcount
    have hnodes : nl.Nodes = nodes := by rw [← hnl]
    rw [hnodes]
    simp only [Nat.sub_zero] at hList
    refine ⟨by rw [hList], ?_, hsib, ?_⟩
    · have := congrArg List.length hList
      simpa using this.symm
    · intro n hn
      obtain ⟨root, hroot, hmem⟩ := mem_subtreeAll.mp hn
      exact hgood root hroot n hmem

/-- Witness for C1: the example two-node description, full mode. -/
theorem claim_C1_ordering_witness :
    ((subtreeAll exNlFull.Nodes).map Node.Order).Perm (List.range' 1 2) ∧
    2 = (subtreeAll exNlFull.Nodes).length ∧
    sibSubtreesOrdered exNlFull.Nodes ∧
    ∀ n ∈ subtreeAll exNlFull.Nodes,
      (∀ d ∈ subtreeAll n.Nodes, n.Order < d.Order) ∧ sibSubtreesOrdered n.Nodes :=
  claim_C1_ordering exMarshal false exDsc exNlFull 2 (by rfl)

/-! ### Inversion of successful runs -/

theorem newNode_ok_inv {marshal : String → Except String String} {sparse : Bool}
    {xmlname lvl olvl : String} {did : Cdid} {scope : Option String}
    {nested : List Cc} {pids : List String} {cnt : Nat} {n : Node} {cnt' : Nat}
    (h : newNode marshal sparse (.mk xmlname lvl olvl did scope nested) pids cnt
      = .ok (n, cnt')) :
    ∃ html children,
      marshalScope marshal sparse scope = .ok html ∧
      newNodes marshal sparse nested (pids ++ [(mkHeader did sparse).InventoryNumber])
        (cnt + 1) = .ok (children, cnt') ∧
      n = Node.mk (if sparse then "" else xmlname) (pids.length + 1) lvl olvl pids
        (cnt + 1) (mkHeader did sparse) html children := by
  rw [newNode, NewHeader_ok] at h
  simp only at h
  cases hm : marshalScope marshal sparse scope with
  | error e => rw [hm] at h; exact absurd h (by simp)
  | ok html =>
    rw [hm] at h
    simp only at h
    cases hrec : newNodes marshal sparse nested
        (pids ++ [(mkHeader did sparse).InventoryNumber]) (cnt + 1) with
    | error e => rw [hrec] at h; exact absurd h (by simp)
    | ok res =>
      obtain ⟨children, cnt₂⟩ := res
      rw [hrec] at h
      simp only [Except.ok.injEq, Prod.mk.injEq] at h
      obtain ⟨hn, hc⟩ := h
      subst hc
      exact ⟨html, children, rfl, rfl, hn.symm⟩

theorem newNodes_cons_ok_inv {marshal : String → Except String String} {sparse : Bool}
    {c : Cc} {cs : List Cc} {pids : List String} {cnt : Nat} {ns : List Node} {cnt' : Nat}
    (h : newNodes marshal sparse (c :: cs) pids cnt = .ok (ns, cnt')) :
    ∃ n cnt₁ ms,
      newNode marshal sparse c pids cnt = .ok (n, cnt₁) ∧
      newNodes marshal sparse cs pids cnt₁ = .ok (ms, cnt') ∧ ns = n :: ms := by
  rw [newNodes] at h
  cases h1 : newNode marshal sparse c pids cnt with
  | error e => rw [h1] at h; exact absurd h (by simp)
  | ok res =>
    obtain ⟨n, cnt₁⟩ := res
    rw [h1] at h
    simp only at h
    cases h2 : newNodes marshal sparse cs pids cnt₁ with
    | error e => rw [h2] at h; exact absurd h (by simp)
    | ok res₂ =>
      obtain ⟨ms, cnt₂⟩ := res₂
      rw [h2] at h
      simp only [Except.ok.injEq, Prod.mk.injEq] at h
      obtain ⟨hns, hcc⟩ := h
      subst hcc
      exact ⟨n, cnt₁, ms, rfl, h2, hns.symm⟩

theorem newNodes_nil_ok_inv {marshal : String → Except String String} {sparse : Bool}
    {pids : List String} {cnt : Nat} {ns : List Node} {cnt' : Nat}
    (h : newNodes marshal sparse [] pids cnt = .ok (ns, cnt')) :
    ns = [] ∧ cnt' = cnt := by
  rw [newNodes] at h
  simp only [Except.ok.injEq, Prod.mk.injEq] at h
  exact ⟨h.1.symm, h.2.symm⟩

theorem newSparseNodeList_ok_inv {dsc : Cdsc} {marshal : String → Except String String}
    {sparse : Bool} {nl : NodeList} {total : Nat}
    (h : dsc.newSparseNodeList marshal sparse = .ok (nl, total)) :
    newNodes marshal sparse dsc.Nested [] 0 = .ok (nl.Nodes, total) ∧
      nl.Type_ = dsc.Attrtype ∧ nl.Label = dsc.Chead.map Chead.Head := by
  rw [Cdsc.newSparseNodeList] at h
  cases hrec : newNodes marshal sparse dsc.Nested [] 0 with
  | error e => rw [hrec] at h; exact absurd h (by simp)
  | ok res =>
    obtain ⟨nodes, counter⟩ := res
    rw [hrec] at h
    simp only [Except.ok.injEq, Prod.mk.injEq] at h
    obtain ⟨hnl, hcount⟩ := h
    subst hcount
    rw [← hnl]
    exact ⟨rfl, rfl, rfl⟩

/-! ### Depth and parent-chain lengths -/

mutual
/-- A successful `newNode` stores the received parent chain verbatim and
sets every subtree node's depth to its own chain length plus one. -/
theorem newNode_depthSpec (marshal : String → Except String String) (sparse : Bool)
    (c : Cc) : ∀ pids cnt n cnt',
    newNode marshal sparse c pids cnt = .ok (n, cnt') →
    n.ParentIDs = pids ∧ n.Depth = pids.length + 1 ∧
      ∀ x ∈ subtreeNodes n, x.Depth = x.ParentIDs.length + 1 := by
  cases c with
  | mk xmlname lvl olvl did scope nested =>
    intro pids cnt n cnt' h
    obtain ⟨html, children, _, hrec, hn⟩ := newNode_ok_inv h
    subst hn
    have ih := newNodes_depthSpec marshal sparse nested
      (pids ++ [(mkHeader did sparse).InventoryNumber]) (cnt + 1) children cnt' hrec
    refine ⟨rfl, rfl, ?_⟩
    intro x hx
    rw [subtreeNodes_def] at hx
    rcases List.mem_cons.mp hx with rfl | hx
    · rfl
    · exact ih.2 x (by simpa [Node.Nodes] using hx)

/-- A successful `newNodes` run gives every direct node the received
chain and depth, and chain-consistent depths throughout. -/
theorem newNodes_depthSpec (marshal : String → Except String String) (sparse : Bool)
    (cs : List Cc) : ∀ pids cnt ns cnt',
    newNodes marshal sparse cs pids cnt = .ok (ns, cnt') →
    (∀ n ∈ ns, n.ParentIDs = pids ∧ n.Depth = pids.length + 1) ∧
      ∀ x ∈ subtreeAll ns, x.Depth = x.ParentIDs.length + 1 := by
  cases cs with
  | nil =>
    intro pids cnt ns cnt' h
    obtain ⟨rfl, rfl⟩ := newNodes_nil_ok_inv h
    simp [subtreeAll]
  | cons c cs =>
    intro pids cnt ns cnt' h
    obtain ⟨n, cnt₁, ms, h1, h2, rfl⟩ := newNodes_cons_ok_inv h
    obtain ⟨hp, hd, hall⟩ := newNode_depthSpec marshal sparse c pids cnt n cnt₁ h1
    obtain ⟨hdir, hall₂⟩ := newNodes_depthSpec marshal sparse cs pids cnt₁ ms cnt' h2
    refine ⟨?_, ?_⟩
    · intro m hm
      rcases List.mem_cons.mp hm with rfl | hm
      · exact ⟨hp, hd⟩
      · exact hdir m hm
    · intro x hx
      rcases List.mem_append.mp hx with hx | hx
      · exact hall x hx
      · exact hall₂ x hx
end

/-- C2. For every node produced by a successful conversion, `depth`
equals the length of its `parentChain` plus one, and every root-level
node has depth 1 and an empty parent chain. -/
theorem claim_C2_depth (marshal : String → Except String String) (sparse : Bool)
    (dsc : Cdsc) (nl : NodeList) (total : Nat)
    (h : dsc.newSparseNodeList marshal sparse = .ok (nl, total)) :
    (∀ x ∈ subtreeAll nl.Nodes, x.Depth = x.ParentIDs.length + 1) ∧
      ∀ n ∈ nl.Nodes, n.Depth = 1 ∧ n.ParentIDs = [] := by
  obtain ⟨hrec, -, -⟩ := newSparseNodeList_ok_inv h
  obtain ⟨hdir, hall⟩ := newNodes_depthSpec marshal sparse dsc.Nested [] 0 nl.Nodes total hrec
  exact ⟨hall, fun n hn => ⟨(hdir n hn).2, (hdir n hn).1⟩⟩

/-- Witness for C2: the example two-node description, full mode. -/
theorem claim_C2_depth_witness :
    (∀ x ∈ subtreeAll exNlFull.Nodes, x.Depth = x.ParentIDs.length + 1) ∧
      ∀ n ∈ exNlFull.Nodes, n.Depth = 1 ∧ n.ParentIDs = [] :=
  claim_C2_depth exMarshal false exDsc exNlFull 2 (by rfl)

/-! ### Characterizing the resolved header fields -/

/-- Labels contributed by the title loop: a title without nested dates
contributes its plain text; a title with nested dates contributes, in
sparse mode, one rendered date label per nested date and, in full mode,
nothing. -/
def titleLabels (sparse : Bool) : List Cunittitle → List String
  | [] => []
  | t :: ts =>
    (match t.Cunitdate with
     | [] => [t.Title]
     | d :: ds => if sparse then (d :: ds).map Cunitdate.Date else []) ++
      titleLabels sparse ts

/-- Structured dates contributed by the title loop in full mode: one per
nested date of every title, in source order. -/
def titleDates : List Cunittitle → List NodeDate
  | [] => []
  | t :: ts => t.Cunitdate.map mkNodeDate ++ titleDates ts

/-- Whether some title carries at least one nested date. -/
def anyTitleDates (ts : List Cunittitle) : Bool :=
  ts.any fun t => !t.Cunitdate.isEmpty

theorem titleDateFold_false (ds : List Cunitdate) :
    ∀ h, titleDateFold false ds h = { h with Date := h.Date ++ ds.map mkNodeDate } := by
  induction ds with
  | nil => intro h; simp [titleDateFold]
  | cons d ds ih => intro h; simp [titleDateFold, ih, List.append_assoc]

theorem titleDateFold_true (ds : List Cunitdate) :
    ∀ h, titleDateFold true ds h =
      { h with Label := h.Label ++ ds.map Cunitdate.Date,
               DateAsLabel := if ds.isEmpty then h.DateAsLabel else false } := by
  induction ds with
  | nil => intro h; simp [titleDateFold]
  | cons d ds ih =>
    intro h
    simp only [titleDateFold, ih, mkNodeDate, List.map_cons, List.isEmpty_cons]
    cases hds : ds.isEmpty <;> simp [List.append_assoc]

theorem titleFold_false (ts : List Cunittitle) :
    ∀ h, titleFold false ts h =
      { h with Label := h.Label ++ titleLabels false ts,
               Date := h.Date ++ titleDates ts,
               DateAsLabel := h.DateAsLabel || anyTitleDates ts } := by
  induction ts with
  | nil => intro h; simp [titleFold, titleLabels, titleDates, anyTitleDates]
  | cons t ts ih =>
    intro h
    cases hds : t.Cunitdate with
    | nil =>
      simp [titleFold, hds, ih, titleLabels, titleDates, anyTitleDates,
        List.append_assoc]
    | cons d ds =>
      simp [titleFold, hds, titleDateFold_false, ih, titleLabels, titleDates,
        anyTitleDates, List.append_assoc]

theorem titleFold_true (ts : List Cunittitle) :
    ∀ h, titleFold true ts h =
      { h with Label := h.Label ++ titleLabels true ts,
               DateAsLabel := if anyTitleDates ts then false else h.DateAsLabel } := by
  induction ts with
  | nil => intro h; simp [titleFold, titleLabels, anyTitleDates]
  | cons t ts ih =>
    intro h
    cases hds : t.Cunitdate with
    | nil =>
      simp only [titleFold, hds, ih, titleLabels, anyTitleDates, List.any_cons,
        List.isEmpty_nil, Bool.not_true, Bool.false_or]
      simp [List.append_assoc]
    | cons d ds =>
      simp only [titleFold, hds, titleDateFold_true, ih, titleLabels, anyTitleDates,
        List.any_cons, List.isEmpty_cons, Bool.not_false, Bool.true_or,
        List.map_cons, if_true]
      simp [List.append_assoc]

theorem directDateFold_spec (ds : List Cunitdate) :
    ∀ h, directDateFold ds h = { h with Date := h.Date ++ ds.map mkNodeDate } := by
  induction ds with
  | nil => intro h; simp [directDateFold]
  | cons d ds ih => intro h; simp [directDateFold, ih, List.append_assoc]

/-- The identifier types recognized as inventory-number sources
(the `switch` cases of `NewNodeIDs`). -/
def isPrimaryID (u : Cunitid) : Bool :=
  u.Attrtype = "ABS" || u.Attrtype = "series_code" || u.Attrtype = ""

theorem nodeIDsFold_fst_full (us : List Cunitid) :
    ∀ ids inv, (nodeIDsFold false us ids inv).1 = ids ++ us.map mkNodeID := by
  induction us with
  | nil => intro ids inv; simp [nodeIDsFold]
  | cons u us ih => intro ids inv; simp [nodeIDsFold, ih, List.append_assoc]

theorem nodeIDsFold_fst_sparse (us : List Cunitid) :
    ∀ ids inv, (nodeIDsFold true us ids inv).1 = ids := by
  induction us with
  | nil => intro ids inv; simp [nodeIDsFold]
  | cons u us ih => intro ids inv; simp [nodeIDsFold, ih]

theorem getLastD_map_cons {α β : Type} (f : α → β) (l : List α) (a : α) (dflt : β) :
    (((a :: l).getLast?).map f).getD dflt = ((l.getLast?).map f).getD (f a) := by
  cases l with
  | nil => simp
  | cons b bs =>
    rw [List.getLast?_cons_cons]
    cases hl : (b :: bs).getLast? with
    | none => simp at hl
    | some x => simp

theorem nodeIDsFold_snd (us : List Cunitid) (sparse : Bool) :
    ∀ ids inv, (nodeIDsFold sparse us ids inv).2 =
      (((us.filter isPrimaryID).getLast?).map Cunitid.ID).getD inv := by
  induction us with
  | nil => intro ids inv; simp [nodeIDsFold]
  | cons u us ih =>
    intro ids inv
    simp only [nodeIDsFold]
    cases hp : isPrimaryID u with
    | true =>
      have hcond : ((mkNodeID u).Type_ = "ABS" ∨ (mkNodeID u).Type_ = "series_code" ∨
          (mkNodeID u).Type_ = "") := by
        simp only [mkNodeID]
        simpa [isPrimaryID, or_assoc] using hp
      rw [if_pos hcond, ih]
      rw [List.filter_cons_of_pos hp]
      rw [getLastD_map_cons]
      rfl
    | false =>
      have hcond : ¬((mkNodeID u).Type_ = "ABS" ∨ (mkNodeID u).Type_ = "series_code" ∨
          (mkNodeID u).Type_ = "") := by
        simp only [mkNodeID]
        have := hp
        simp only [isPrimaryID, Bool.or_eq_false_iff, decide_eq_false_iff_not] at this
        push_neg
        exact ⟨this.1.1, this.1.2, this.2⟩
      rw [if_neg hcond, ih, List.filter_cons_of_neg (by simp [hp])]

/-- The resolved inventory number of an identifier list: the `id` of
the last identifier whose type is recognized, or `""` when none is. -/
def invOf (us : List Cunitid) : String :=
  (((us.filter isPrimaryID).getLast?).map Cunitid.ID).getD ""

theorem mkHeader_Label_false (cdid : Cdid) :
    (mkHeader cdid false).Label = titleLabels false cdid.Cunittitle := by
  cases hp : cdid.Cphysdesc <;>
    simp [mkHeader, hp, titleFold_false, directDateFold_spec, apply_ite Header.Label]

theorem mkHeader_Label_true (cdid : Cdid) :
    (mkHeader cdid true).Label = titleLabels true cdid.Cunittitle := by
  cases hp : cdid.Cphysdesc <;>
    simp [mkHeader, hp, titleFold_true, apply_ite Header.Label]

theorem mkHeader_Date_false (cdid : Cdid) :
    (mkHeader cdid false).Date =
      titleDates cdid.Cunittitle ++ cdid.Cunitdate.map mkNodeDate := by
  cases hp : cdid.Cphysdesc <;>
    simp [mkHeader, hp, titleFold_false, directDateFold_spec, apply_ite Header.Date]

theorem mkHeader_Date_true (cdid : Cdid) : (mkHeader cdid true).Date = [] := by
  cases hp : cdid.Cphysdesc <;>
    simp [mkHeader, hp, titleFold_true, apply_ite Header.Date]

theorem mkHeader_DateAsLabel_false (cdid : Cdid) :
    (mkHeader cdid false).DateAsLabel = anyTitleDates cdid.Cunittitle := by
  cases hp : cdid.Cphysdesc <;>
    simp [mkHeader, hp, titleFold_false, directDateFold_spec, apply_ite Header.DateAsLabel]

theorem mkHeader_DateAsLabel_true (cdid : Cdid) :
    (mkHeader cdid true).DateAsLabel = false := by
  cases hp : cdid.Cphysdesc <;>
    simp [mkHeader, hp, titleFold_true, apply_ite Header.DateAsLabel]

theorem mkHeader_ID_false (cdid : Cdid) :
    (mkHeader cdid false).ID = cdid.Cunitid.map mkNodeID := by
  cases hp : cdid.Cphysdesc <;>
    simp [mkHeader, hp, titleFold_false, directDateFold_spec,
      nodeIDsFold_fst_full, apply_ite Header.ID]

theorem mkHeader_ID_true (cdid : Cdid) : (mkHeader cdid true).ID = [] := by
  cases hp : cdid.Cphysdesc <;>
    simp [mkHeader, hp, titleFold_true, nodeIDsFold_fst_sparse, apply_ite Header.ID]

theorem mkHeader_Physdesc_false (cdid : Cdid) :
    (mkHeader cdid false).Physdesc = cdid.Cphysdesc.getD "" := by
  cases hp : cdid.Cphysdesc <;>
    simp [mkHeader, hp, titleFold_false, directDateFold_spec, apply_ite Header.Physdesc]

theorem mkHeader_Physdesc_true (cdid : Cdid) : (mkHeader cdid true).Physdesc = "" := by
  cases hp : cdid.Cphysdesc <;>
    simp [mkHeader, hp, titleFold_true, apply_ite Header.Physdesc]

/-- The resolved inventory number does not depend on the fidelity mode. -/
theorem mkHeader_InventoryNumber (cdid : Cdid) (sparse : Bool) :
    (mkHeader cdid sparse).InventoryNumber = invOf cdid.Cunitid := by
  have hsnd := nodeIDsFold_snd cdid.Cunitid sparse [] ""
  by_cases hinv : invOf cdid.Cunitid = ""
  · cases sparse <;> cases hp : cdid.Cphysdesc <;>
      simp_all [mkHeader, hp, titleFold_false, titleFold_true, directDateFold_spec,
        invOf, apply_ite Header.InventoryNumber]
  · cases sparse <;> cases hp : cdid.Cphysdesc <;>
      simp_all [mkHeader, hp, titleFold_false, titleFold_true, directDateFold_spec,
        invOf, apply_ite Header.InventoryNumber]

/-- C9. Header resolution never fails: for every identification block
and either fidelity mode, `NewHeader` returns a header and no error,
and the `NewNodeID` / `NewNodeDate` steps it relies on always succeed;
no error branch is reachable. -/
theorem claim_C9_header_never_fails (cdid : Cdid) (sparse : Bool)
    (ui : Cunitid) (d : Cunitdate) :
    cdid.NewHeader sparse = .ok (mkHeader cdid sparse) ∧
    ui.NewNodeID = .ok (mkNodeID ui) ∧
    d.NewNodeDate = .ok (mkNodeDate d) :=
  ⟨NewHeader_ok cdid sparse, rfl, rfl⟩

/-- The first example identifier list of C5:
types "other", "ABS", "series_code" in that order. -/
def exIDs : List Cunitid :=
  [⟨"X0", "", "other", ""⟩, ⟨"A1", "", "ABS", ""⟩, ⟨"S1", "", "series_code", ""⟩]

/-- The second example identifier list of C5: "ABS" then "other". -/
def exIDs2 : List Cunitid := [⟨"A1", "", "ABS", ""⟩, ⟨"X0", "", "other", ""⟩]

/-- Identification block around `exIDs`. -/
def exDid5 : Cdid := { Cphysdesc := none, Cunittitle := [], Cunitdate := [], Cunitid := exIDs }

/-- Identification block around `exIDs2`. -/
def exDid5b : Cdid := { Cphysdesc := none, Cunittitle := [], Cunitdate := [], Cunitid := exIDs2 }

/-- C5. For every identifier list, the inventory number resolved by
`NewNodeIDs` is the `id` of the last identifier in source order whose
type is `""`, `"ABS"` or `"series_code"` (so later matches overwrite
earlier ones, and identifiers of any other type never affect it);
`""` when no identifier matches. -/
theorem claim_C5_inventory (cdid : Cdid) (sparse : Bool) (ids : List NodeID)
    (inv : String) (h : cdid.NewNodeIDs sparse = .ok (ids, inv)) :
    inv = (((cdid.Cunitid.filter isPrimaryID).getLast?).map Cunitid.ID).getD "" := by
  rw [Cdid.NewNodeIDs, nodeIDsLoop_eq] at h
  simp only [Except.ok.injEq] at h
  have hsnd := congrArg Prod.snd h
  simp only at hsnd
  rw [← hsnd, nodeIDsFold_snd]

/-- Witness for C5: the two example identifier lists of the claim
resolve to "S1" (last match wins) and "A1" (trailing non-match is
ignored). -/
theorem claim_C5_inventory_witness :
    ("S1" = (((exIDs.filter isPrimaryID).getLast?).map Cunitid.ID).getD "") ∧
    ("A1" = (((exIDs2.filter isPrimaryID).getLast?).map Cunitid.ID).getD "") :=
  ⟨claim_C5_inventory exDid5 false (exIDs.map mkNodeID) "S1" (by rfl),
   claim_C5_inventory exDid5b false (exIDs2.map mkNodeID) "A1" (by rfl)⟩

/-- C6. Title/date resolution: in full mode a title with nested dates
contributes one structured date per nested date to `dates` (and
`dateAsLabel` is true exactly when some title carries dates), while in
sparse mode it contributes the rendered date labels to `labels` and
`dateAsLabel` is forced false; a title with dates never contributes its
plain text, a title without dates contributes exactly its plain text,
all in source order (full-mode `dates` carries the direct dates as a
suffix after the title-nested ones). -/
theorem claim_C6_title_dates (cdid : Cdid) (hf hs : Header)
    (hfull : cdid.NewHeader false = .ok hf)
    (hsparse : cdid.NewHeader true = .ok hs) :
    hf.Label = titleLabels false cdid.Cunittitle ∧
    hf.Date = titleDates cdid.Cunittitle ++ cdid.Cunitdate.map mkNodeDate ∧
    hf.DateAsLabel = anyTitleDates cdid.Cunittitle ∧
    hs.Label = titleLabels true cdid.Cunittitle ∧
    hs.DateAsLabel = false ∧
    hs.Date = [] := by
  rw [NewHeader_ok] at hfull hsparse
  simp only [Except.ok.injEq] at hfull hsparse
  subst hfull; subst hsparse
  exact ⟨mkHeader_Label_false cdid, mkHeader_Date_false cdid,
    mkHeader_DateAsLabel_false cdid, mkHeader_Label_true cdid,
    mkHeader_DateAsLabel_true cdid, mkHeader_Date_true cdid⟩

/-- Identification block for the C6 witness: one title carrying a
nested date, one plain title, one direct date. -/
def exDid6 : Cdid :=
  { Cphysdesc := none,
    Cunittitle := [⟨"T1", [⟨"", "", "1900-01-01", "1900"⟩]⟩, ⟨"T2", []⟩],
    Cunitdate := [⟨"", "", "2000-01-01", "2000"⟩],
    Cunitid := [] }

/-- Witness for C6 on `exDid6`. -/
theorem claim_C6_title_dates_witness :
    (mkHeader exDid6 false).Label = titleLabels false exDid6.Cunittitle ∧
    (mkHeader exDid6 false).Date =
      titleDates exDid6.Cunittitle ++ exDid6.Cunitdate.map mkNodeDate ∧
    (mkHeader exDid6 false).DateAsLabel = anyTitleDates exDid6.Cunittitle ∧
    (mkHeader exDid6 true).Label = titleLabels true exDid6.Cunittitle ∧
    (mkHeader exDid6 true).DateAsLabel = false ∧
    (mkHeader exDid6 true).Date = [] :=
  claim_C6_title_dates exDid6 (mkHeader exDid6 false) (mkHeader exDid6 true)
    (by rfl) (by rfl)

/-- In sparse mode the scope content is never marshalled. -/
theorem marshalScope_sparse (marshal : String → Except String String)
    (scope : Option String) : marshalScope marshal true scope = .ok "" := by
  cases scope <;> rfl

mutual
/-- Every node of a sparse-mode subtree has empty tag, identifiers,
serialized markup, physical description and dates. -/
theorem newNode_sparseSpec (marshal : String → Except String String) (c : Cc) :
    ∀ pids cnt n cnt', newNode marshal true c pids cnt = .ok (n, cnt') →
    ∀ x ∈ subtreeNodes n, x.CTag = "" ∧ x.Header.ID = [] ∧ x.HTML = "" ∧
      x.Header.Physdesc = "" ∧ x.Header.Date = [] := by
  cases c with
  | mk xmlname lvl olvl did scope nested =>
    intro pids cnt n cnt' h x hx
    obtain ⟨html, children, hm, hrec, hn⟩ := newNode_ok_inv h
    rw [marshalScope_sparse] at hm
    simp only [Except.ok.injEq] at hm
    subst hn
    rw [subtreeNodes_def] at hx
    rcases List.mem_cons.mp hx with rfl | hx
    · exact ⟨rfl, mkHeader_ID_true did, hm.symm, mkHeader_Physdesc_true did,
        mkHeader_Date_true did⟩
    · exact newNodes_sparseSpec marshal nested _ (cnt + 1) children cnt' hrec x
        (by simpa [Node.Nodes] using hx)

/-- Forest version of `newNode_sparseSpec`. -/
theorem newNodes_sparseSpec (marshal : String → Except String String) (cs : List Cc) :
    ∀ pids cnt ns cnt', newNodes marshal true cs pids cnt = .ok (ns, cnt') →
    ∀ x ∈ subtreeAll ns, x.CTag = "" ∧ x.Header.ID = [] ∧ x.HTML = "" ∧
      x.Header.Physdesc = "" ∧ x.Header.Date = [] := by
  cases cs with
  | nil =>
    intro pids cnt ns cnt' h x hx
    obtain ⟨rfl, -⟩ := newNodes_nil_ok_inv h
    simp [subtreeAll] at hx
  | cons c cs =>
    intro pids cnt ns cnt' h x hx
    obtain ⟨n, cnt₁, ms, h1, h2, rfl⟩ := newNodes_cons_ok_inv h
    rcases List.mem_append.mp hx with hx | hx
    · exact newNode_sparseSpec marshal c pids cnt n cnt₁ h1 x hx
    · exact newNodes_sparseSpec marshal cs pids cnt₁ ms cnt' h2 x hx
end

/-- C7. Every node produced by the sparse entry point has an empty tag,
an empty identifier sequence, empty serialized markup and an empty
physical description, regardless of the input; its header carries no
dates at all (in particular no direct dates). -/
theorem claim_C7_sparse_omission (marshal : String → Except String String)
    (dsc : Cdsc) (nl : NodeList) (total : Nat)
    (h : dsc.NewSparseNodeList marshal = .ok (nl, total)) :
    ∀ x ∈ subtreeAll nl.Nodes, x.CTag = "" ∧ x.Header.ID = [] ∧ x.HTML = "" ∧
      x.Header.Physdesc = "" ∧ x.Header.Date = [] := by
  obtain ⟨hrec, -, -⟩ := newSparseNodeList_ok_inv h
  exact newNodes_sparseSpec marshal dsc.Nested [] 0 nl.Nodes total hrec

/-- The root node of the sparse conversion of the example description. -/
def exSparseRoot : Node :=
  Node.mk "" 1 "series" "" [] 1
    { Physdesc := "", Label := ["Letters"], Date := [], DateAsLabel := false,
      ID := [], InventoryNumber := "S1" } ""
    [Node.mk "" 2 "file" "" ["S1"] 2
      { Physdesc := "", Label := ["Letter 1"], Date := [], DateAsLabel := false,
        ID := [], InventoryNumber := "" } "" []]

/-- Witness for C7: the root node of the sparse conversion of the
example description has all sparse-omitted fields empty. -/
theorem claim_C7_sparse_omission_witness :
    exSparseRoot.CTag = "" ∧ exSparseRoot.Header.ID = [] ∧ exSparseRoot.HTML = "" ∧
      exSparseRoot.Header.Physdesc = "" ∧ exSparseRoot.Header.Date = [] :=
  claim_C7_sparse_omission exMarshal exDsc exNlSparse 2 (by rfl) exSparseRoot
    (List.Mem.head _)

/-- The mode-independent shape of a produced node: order, depth, level
attributes, parent chain, and the shapes of the children. -/
inductive Skel where
  | mk (depth order : Nat) (typ subtyp : String) (pids : List String)
       (children : List Skel)
deriving Repr

mutual
/-- Shape projection of a produced node. -/
def skel : Node → Skel
  | .mk _ d t st p o _ _ ns => .mk d o t st p (skelL ns)

/-- Shape projection of a produced forest. -/
def skelL : List Node → List Skel
  | [] => []
  | n :: ns => skel n :: skelL ns
end

mutual
/-- Full-mode and sparse-mode runs from the same component, chain and
counter produce identical shapes and identical final counters. -/
theorem newNode_modeSpec (marshal : String → Except String String) (c : Cc) :
    ∀ pids cnt nf cf nsp csp,
    newNode marshal false c pids cnt = .ok (nf, cf) →
    newNode marshal true c pids cnt = .ok (nsp, csp) →
    skel nf = skel nsp ∧ cf = csp := by
  cases c with
  | mk xmlname lvl olvl did scope nested =>
    intro pids cnt nf cf nsp csp hf hs
    obtain ⟨htmlF, childrenF, hmF, hrecF, hnF⟩ := newNode_ok_inv hf
    obtain ⟨htmlS, childrenS, hmS, hrecS, hnS⟩ := newNode_ok_inv hs
    rw [mkHeader_InventoryNumber did true] at hrecS
    rw [mkHeader_InventoryNumber did false] at hrecF
    obtain ⟨hskel, hcnt⟩ := newNodes_modeSpec marshal nested
      (pids ++ [invOf did.Cunitid]) (cnt + 1) childrenF cf childrenS csp hrecF hrecS
    subst hnF; subst hnS
    exact ⟨by simp only [skel, hskel], hcnt⟩

/-- Forest version of `newNode_modeSpec`. -/
theorem newNodes_modeSpec (marshal : String → Except String String) (ccs : List Cc) :
    ∀ pids cnt nsf cf nss csp,
    newNodes marshal false ccs pids cnt = .ok (nsf, cf) →
    newNodes marshal true ccs pids cnt = .ok (nss, csp) →
    skelL nsf = skelL nss ∧ cf = csp := by
  cases ccs with
  | nil =>
    intro pids cnt nsf cf nss csp hf hs
    obtain ⟨rfl, rfl⟩ := newNodes_nil_ok_inv hf
    obtain ⟨rfl, rfl⟩ := newNodes_nil_ok_inv hs
    exact ⟨rfl, rfl⟩
  | cons c cs =>
    intro pids cnt nsf cf nss csp hf hs
    obtain ⟨nF, cnt₁F, msF, h1F, h2F, rfl⟩ := newNodes_cons_ok_inv hf
    obtain ⟨nS, cnt₁S, msS, h1S, h2S, rfl⟩ := newNodes_cons_ok_inv hs
    obtain ⟨hsk₁, hc₁⟩ := newNode_modeSpec marshal c pids cnt nF cnt₁F nS cnt₁S h1F h1S
    subst hc₁
    obtain ⟨hsk₂, hc₂⟩ := newNodes_modeSpec marshal cs pids cnt₁F msF cf msS csp h2F h2S
    exact ⟨by simp only [skelL, hsk₁, hsk₂], hc₂⟩
end

/-- C4. When both the full and the sparse conversion succeed on the
same description, the produced trees have identical shape: the same
`order`, `depth`, `parentChain` (and level attributes) at every
corresponding node, and the same `totalNodeCount`; the mode affects
only the remaining content fields. -/
theorem claim_C4_mode_invariant_shape (marshal : String → Except String String)
    (dsc : Cdsc) (nlf : NodeList) (tf : Nat) (nls : NodeList) (tsp : Nat)
    (hf : dsc.NewNodeList marshal = .ok (nlf, tf))
    (hs : dsc.NewSparseNodeList marshal = .ok (nls, tsp)) :
    skelL nlf.Nodes = skelL nls.Nodes ∧ tf = tsp := by
  obtain ⟨hrecF, -, -⟩ := newSparseNodeList_ok_inv hf
  obtain ⟨hrecS, -, -⟩ := newSparseNodeList_ok_inv hs
  exact newNodes_modeSpec marshal dsc.Nested [] 0 nlf.Nodes tf nls.Nodes tsp hrecF hrecS

/-- Witness for C4: the example description in both modes. -/
theorem claim_C4_mode_invariant_shape_witness :
    skelL exNlFull.Nodes = skelL exNlSparse.Nodes ∧ 2 = 2 :=
  claim_C4_mode_invariant_shape exMarshal exDsc exNlFull 2 exNlSparse 2
    (by rfl) (by rfl)

/-! ### Error propagation -/

mutual
/-- All components of a component subtree, the root first. -/
def allComps : Cc → List Cc
  | .mk x l ol did sc ns => .mk x l ol did sc ns :: allCompsL ns

/-- All components of a component forest. -/
def allCompsL : List Cc → List Cc
  | [] => []
  | c :: cs => allComps c ++ allCompsL cs
end

theorem allComps_def (c : Cc) : allComps c = c :: allCompsL c.nested := by
  cases c; rfl

mutual
/-- If a full-mode run fails with error `e`, some component of the
subtree carries a scope block whose serialization fails with exactly
that error. -/
theorem newNode_err_elim (marshal : String → Except String String) (c : Cc) :
    ∀ pids cnt e, newNode marshal false c pids cnt = .error e →
    ∃ cc ∈ allComps c, ∃ cp, cc.scope = some cp ∧ marshal cp = .error e := by
  cases c with
  | mk xmlname lvl olvl did scope nested =>
    intro pids cnt e h
    rw [newNode, NewHeader_ok] at h
    simp only at h
    cases hm : marshalScope marshal false scope with
    | error e' =>
      rw [hm] at h
      simp only [Except.error.injEq] at h
      subst h
      cases scope with
      | none => exact absurd hm (by simp [marshalScope])
      | some cp =>
        refine ⟨.mk xmlname lvl olvl did (some cp) nested, ?_, cp, rfl, ?_⟩
        · rw [allComps_def]; exact List.mem_cons_self _ _
        · simpa [marshalScope] using hm
    | ok html =>
      rw [hm] at h
      simp only at h
      cases hrec : newNodes marshal false nested
          (pids ++ [(mkHeader did false).InventoryNumber]) (cnt + 1) with
      | error e' =>
        rw [hrec] at h
        simp only [Except.error.injEq] at h
        subst h
        obtain ⟨cc, hcc, hbad⟩ := newNodes_err_elim marshal nested _ (cnt + 1) e' hrec
        refine ⟨cc, ?_, hbad⟩
        rw [allComps_def]
        exact List.mem_cons_of_mem _ (by simpa [Cc.nested] using hcc)
      | ok res =>
        obtain ⟨children, cnt₂⟩ := res
        rw [hrec] at h
        exact absurd h (by simp)

/-- Forest version of `newNode_err_elim`. -/
theorem newNodes_err_elim (marshal : String → Except String String) (cs : List Cc) :
    ∀ pids cnt e, newNodes marshal false cs pids cnt = .error e →
    ∃ cc ∈ allCompsL cs, ∃ cp, cc.scope = some cp ∧ marshal cp = .error e := by
  cases cs with
  | nil => intro pids cnt e h; rw [newNodes] at h; exact absurd h (by simp)
  | cons c cs =>
    intro pids cnt e h
    rw [newNodes] at h
    cases h1 : newNode marshal false c pids cnt with
    | error e' =>
      rw [h1] at h
      simp only [Except.error.injEq] at h
      subst h
      obtain ⟨cc, hcc, hbad⟩ := newNode_err_elim marshal c pids cnt e' h1
      exact ⟨cc, List.mem_append_left _ hcc, hbad⟩
    | ok res =>
      obtain ⟨n, cnt₁⟩ := res
      rw [h1] at h
      simp only at h
      cases h2 : newNodes marshal false cs pids cnt₁ with
      | error e' =>
        rw [h2] at h
        simp only [Except.error.injEq] at h
        subst h
        obtain ⟨cc, hcc, hbad⟩ := newNodes_err_elim marshal cs pids cnt₁ e' h2
        exact ⟨cc, List.mem_append_right _ hcc, hbad⟩
      | ok res₂ =>
        obtain ⟨ms, cnt₂⟩ := res₂
        rw [h2] at h
        exact absurd h (by simp)
end

mutual
/-- A successful full-mode run implies every scope block in the subtree
serializes successfully. -/
theorem newNode_ok_no_bad (marshal : String → Except String String) (c : Cc) :
    ∀ pids cnt n cnt', newNode marshal false c pids cnt = .ok (n, cnt') →
    ∀ cc ∈ allComps c, ∀ cp, cc.scope = some cp → ∃ v, marshal cp = .ok v := by
  cases c with
  | mk xmlname lvl olvl did scope nested =>
    intro pids cnt n cnt' h cc hcc cp hcp
    obtain ⟨html, children, hm, hrec, -⟩ := newNode_ok_inv h
    rw [allComps_def] at hcc
    rcases List.mem_cons.mp hcc with rfl | hcc
    · simp only [Cc.scope] at hcp
      subst hcp
      exact ⟨html, by simpa [marshalScope] using hm⟩
    · exact newNodes_ok_no_bad marshal nested _ (cnt + 1) children cnt' hrec cc
        (by simpa [Cc.nested] using hcc) cp hcp

/-- Forest version of `newNode_ok_no_bad`. -/
theorem newNodes_ok_no_bad (marshal : String → Except String String) (cs : List Cc) :
    ∀ pids cnt ns cnt', newNodes marshal false cs pids cnt = .ok (ns, cnt') →
    ∀ cc ∈ allCompsL cs, ∀ cp, cc.scope = some cp → ∃ v, marshal cp = .ok v := by
  cases cs with
  | nil => intro pids cnt ns cnt' h cc hcc; simp [allCompsL] at hcc
  | cons c cs =>
    intro pids cnt ns cnt' h cc hcc cp hcp
    obtain ⟨n, cnt₁, ms, h1, h2, rfl⟩ := newNodes_cons_ok_inv h
    rcases List.mem_append.mp hcc with hcc | hcc
    · exact newNode_ok_no_bad marshal c pids cnt n cnt₁ h1 cc hcc cp hcp
    · exact newNodes_ok_no_bad marshal cs pids cnt₁ ms cnt' h2 cc hcc cp hcp
end

mutual
/-- Sparse-mode runs always succeed: no step can fail. -/
theorem newNode_sparse_total (marshal : String → Except String String) (c : Cc) :
    ∀ pids cnt, ∃ res, newNode marshal true c pids cnt = .ok res := by
  cases c with
  | mk xmlname lvl olvl did scope nested =>
    intro pids cnt
    obtain ⟨⟨ns, cnt'⟩, hns⟩ := newNodes_sparse_total marshal nested
      (pids ++ [(mkHeader did true).InventoryNumber]) (cnt + 1)
    refine ⟨(.mk "" (pids.length + 1) lvl olvl pids (cnt + 1)
      (mkHeader did true) "" ns, cnt'), ?_⟩
    rw [newNode, NewHeader_ok]
    simp only
    rw [marshalScope_sparse]
    simp only
    rw [hns]
    rfl

/-- Forest version of `newNode_sparse_total`. -/
theorem newNodes_sparse_total (marshal : String → Except String String) (cs : List Cc) :
    ∀ pids cnt, ∃ res, newNodes marshal true cs pids cnt = .ok res := by
  cases cs with
  | nil => intro pids cnt; exact ⟨([], cnt), rfl⟩
  | cons c cs =>
    intro pids cnt
    obtain ⟨⟨n, cnt₁⟩, h1⟩ := newNode_sparse_total marshal c pids cnt
    obtain ⟨⟨ms, cnt₂⟩, h2⟩ := newNodes_sparse_total marshal cs pids cnt₁
    refine ⟨(n :: ms, cnt₂), ?_⟩
    rw [newNodes, h1]
    simp only
    rw [h2]
end

mutual
/-- If every scope block of the subtree serializes successfully, the
full-mode run succeeds. -/
theorem newNode_ok_of_good (marshal : String → Except String String) (c : Cc) :
    ∀ pids cnt,
    (∀ cc ∈ allComps c, ∀ cp, cc.scope = some cp → ∃ v, marshal cp = .ok v) →
    ∃ res, newNode marshal false c pids cnt = .ok res := by
  cases c with
  | mk xmlname lvl olvl did scope nested =>
    intro pids cnt hgood
    have hnested : ∀ cc ∈ allCompsL nested, ∀ cp, cc.scope = some cp →
        ∃ v, marshal cp = .ok v := by
      intro cc hcc
      refine hgood cc ?_
      rw [allComps_def]
      exact List.mem_cons_of_mem _ (by simpa [Cc.nested] using hcc)
    obtain ⟨⟨ns, cnt'⟩, hns⟩ := newNodes_ok_of_good marshal nested
      (pids ++ [(mkHeader did false).InventoryNumber]) (cnt + 1) hnested
    have hscope : ∃ html, marshalScope marshal false scope = .ok html := by
      cases scope with
      | none => exact ⟨"", rfl⟩
      | some cp =>
        obtain ⟨v, hv⟩ := hgood (.mk xmlname lvl olvl did (some cp) nested)
          (by rw [allComps_def]; exact List.mem_cons_self _ _) cp rfl
        exact ⟨v, by simpa [marshalScope] using hv⟩
    obtain ⟨html, hhtml⟩ := hscope
    refine ⟨(.mk xmlname (pids.length + 1) lvl olvl pids (cnt + 1)
      (mkHeader did false) html ns, cnt'), ?_⟩
    rw [newNode, NewHeader_ok]
    simp only
    rw [hhtml]
    simp only
    rw [hns]
    rfl

/-- Forest version of `newNode_ok_of_good`. -/
theorem newNodes_ok_of_good (marshal : String → Except String String) (cs : List Cc) :
    ∀ pids cnt,
    (∀ cc ∈ allCompsL cs, ∀ cp, cc.scope = some cp → ∃ v, marshal cp = .ok v) →
    ∃ res, newNodes marshal false cs pids cnt = .ok res := by
  cases cs with
  | nil => intro pids cnt _; exact ⟨([], cnt), rfl⟩
  | cons c cs =>
    intro pids cnt hgood
    obtain ⟨⟨n, cnt₁⟩, h1⟩ := newNode_ok_of_good marshal c pids cnt
      (fun cc hcc => hgood cc (List.mem_append_left _ hcc))
    obtain ⟨⟨ms, cnt₂⟩, h2⟩ := newNodes_ok_of_good marshal cs pids cnt₁
      (fun cc hcc => hgood cc (List.mem_append_right _ hcc))
    refine ⟨(n :: ms, cnt₂), ?_⟩
    rw [newNodes, h1]
    simp only
    rw [h2]
end

/-- C8. Failure semantics: a full-mode conversion fails exactly when
the serialization of some component's scope block fails anywhere in the
tree; the error returned is that serialization error (propagated
unchanged through every recursive level, with no container returned —
the result type allows no partial tree); and serialization is the only
error source, so the sparse conversion, which never serializes, always
succeeds. -/
theorem claim_C8_fail_fast (marshal : String → Except String String) (dsc : Cdsc) :
    ((∃ e, dsc.NewNodeList marshal = .error e) ↔
      ∃ c ∈ allCompsL dsc.Nested, ∃ cp, c.scope = some cp ∧ ∃ e, marshal cp = .error e) ∧
    (∀ e, dsc.NewNodeList marshal = .error e →
      ∃ c ∈ allCompsL dsc.Nested, ∃ cp, c.scope = some cp ∧ marshal cp = .error e) ∧
    (∃ res, dsc.NewSparseNodeList marshal = .ok res) := by
  have helim : ∀ e, dsc.NewNodeList marshal = .error e →
      ∃ c ∈ allCompsL dsc.Nested, ∃ cp, c.scope = some cp ∧ marshal cp = .error e := by
    intro e h
    rw [Cdsc.NewNodeList, Cdsc.newSparseNodeList] at h
    cases hrec : newNodes marshal false dsc.Nested [] 0 with
    | error e' =>
      rw [hrec] at h
      simp only [Except.error.injEq] at h
      subst h
      exact newNodes_err_elim marshal dsc.Nested [] 0 e' hrec
    | ok res =>
      obtain ⟨nodes, counter⟩ := res
      rw [hrec] at h
      exact absurd h (by simp)
  refine ⟨⟨fun ⟨e, he⟩ => ?_, fun ⟨c, hc, cp, hcp, e, he⟩ => ?_⟩, helim, ?_⟩
  · obtain ⟨c, hc, cp, hcp, hbad⟩ := helim e he
    exact ⟨c, hc, cp, hcp, e, hbad⟩
  · cases hres : dsc.NewNodeList marshal with
    | error e' => exact ⟨e', rfl⟩
    | ok res =>
      obtain ⟨nl, total⟩ := res
      rw [Cdsc.NewNodeList] at hres
      obtain ⟨hrec, -, -⟩ := newSparseNodeList_ok_inv hres
      obtain ⟨v, hv⟩ := newNodes_ok_no_bad marshal dsc.Nested [] 0 nl.Nodes total hrec
        c hc cp hcp
      rw [hv] at he
      exact absurd he (by simp)
  · rw [Cdsc.NewSparseNodeList, Cdsc.newSparseNodeList]
    obtain ⟨⟨ns, cnt'⟩, hns⟩ := newNodes_sparse_total marshal dsc.Nested [] 0
    rw [hns]
    exact ⟨_, rfl⟩

/-- A marshal function that always fails. -/
def badMarshal : String → Except String String := fun s => .error ("bad: " ++ s)

/-- A description whose single root component carries a scope block. -/
def exDscBad : Cdsc :=
  { Attrtype := "combined", Chead := [],
    Nested := [.mk "c01" "series" "" exDid2 (some "content") []] }

/-- Witness for C8: with a failing serializer on a scoped component, the
full conversion reports exactly that serialization error. -/
theorem claim_C8_fail_fast_witness :
    ∃ c ∈ allCompsL exDscBad.Nested, ∃ cp, c.scope = some cp ∧
      badMarshal cp = .error "bad: content" :=
  (claim_C8_fail_fast badMarshal exDscBad).2.1 "bad: content" (by rfl)

/-- C10. A description with no root-level components converts, in both
modes, to a container with the copied level type, the copied root
labels, no roots, and a zero total node count, with no error. -/
theorem claim_C10_empty_description (marshal : String → Except String String)
    (ty : String) (heads : List Chead) :
    (Cdsc.mk ty heads []).NewNodeList marshal =
      .ok ({ Type_ := ty, Label := heads.map Chead.Head, Nodes := [] }, 0) ∧
    (Cdsc.mk ty heads []).NewSparseNodeList marshal =
      .ok ({ Type_ := ty, Label := heads.map Chead.Head, Nodes := [] }, 0) :=
  ⟨rfl, rfl⟩

/-! ### Go slice semantics of the parent chain

The conversion functions above embed `parentIDs` as an immutable list.
The Go source, however, manipulates `parentIDs` as a Go slice:

* `Cc01.NewNode` builds `parentIDS := []string{inv}` (length 1,
  capacity 1);
* every nested `NewNode` stores the received slice header into
  `node.ParentIDs` and then executes
  `parentIDs = append(parentIDs, header.GetInventoryNumber())`.

Per the Go specification, `append` reuses the underlying array when the
capacity suffices and otherwise allocates a new one; the `gc` runtime
doubles the capacity of small slices on reallocation. Consequently a
node whose received slice has spare capacity appends its inventory
number *in place*, into an array shared with its earlier siblings'
descendants, overwriting the entry those descendants' stored
`ParentIDs` headers still point at.

The model below makes the store of backing arrays explicit so that this
sharing is captured: a slice is an array index plus length and
capacity, reads go through the store, and `goAppend` follows the Go
rules (reuse when `len < cap`, else reallocate with doubled capacity —
for string slices of these sizes the allocator's size classes add no
extra capacity). Only the fields relevant to the parent chain are kept
(`order`, the stored `ParentIDs` slice header, children); tags, headers
and markup are one-shot copies unaffected by sharing. -/

/-- A Go slice header: backing-array index, length, capacity. -/
structure GoSlice where
  arr : Nat
  len : Nat
  cap : Nat
deriving Repr, DecidableEq

/-- The heap of backing arrays. -/
abbrev Store := List (List String)

/-- Reading a slice: the first `len` cells of its backing array. -/
def readSlice (st : Store) (s : GoSlice) : List String := (st.getD s.arr []).take s.len

/-- In-place write into one cell of a backing array. -/
def writeAt (st : Store) (i : Nat) (pos : Nat) (x : String) : Store :=
  st.set i ((st.getD i []).set pos x)

/-- Go `append` of one element: reuse the backing array when capacity
allows, otherwise allocate a fresh doubled-capacity array. -/
def goAppend (st : Store) (s : GoSlice) (x : String) : Store × GoSlice :=
  if s.len < s.cap then
    (writeAt st s.arr s.len x, { s with len := s.len + 1 })
  else
    let newcap := if s.cap = 0 then 1 else 2 * s.cap
    let content := readSlice st s ++ [x] ++ List.replicate (newcap - (s.len + 1)) ""
    (st ++ [content], { arr := st.length, len := s.len + 1, cap := newcap })

/-- The Go composite literal `[]string{x}`: a fresh array of length and
capacity 1. -/
def singletonSlice (st : Store) (x : String) : Store × GoSlice :=
  (st ++ [[x]], { arr := st.length, len := 1, cap := 1 })

/-- A produced node in the slice-level model: its order, its stored
`ParentIDs` slice header (`none` for root nodes, whose field is never
set), and its children. -/
inductive ANode where
  | mk (order : Nat) (pids : Option GoSlice) (children : List ANode)
deriving Repr

mutual
/-- Slice-level `NewNode`: store the received slice header verbatim,
append the node's inventory number (a root node instead allocates the
one-element literal), and recurse, threading the counter and the store
exactly as the Go recursion does. -/
def newNodeA : Cc → Option GoSlice → Nat → Store → ANode × Nat × Store
  | .mk _ _ _ did _ nested, pids, counter, st =>
    let order := counter + 1
    let inv := (mkHeader did false).InventoryNumber
    let (st', childSlice) :=
      match pids with
      | none => singletonSlice st inv
      | some s => goAppend st s inv
    let (children, counter', st'') := newNodesA nested (some childSlice) order st'
    (.mk order pids children, counter', st'')

/-- Slice-level child loop. -/
def newNodesA : List Cc → Option GoSlice → Nat → Store → List ANode × Nat × Store
  | [], _, counter, st => ([], counter, st)
  | c :: cs, pids, counter, st =>
    let (n, c₁, st₁) := newNodeA c pids counter st
    let (ns, c₂, st₂) := newNodesA cs pids c₁ st₁
    (n :: ns, c₂, st₂)
end

/-- The parent chain a stored slice header denotes once the run is
over, read against the final store. -/
def resolvedChain (st : Store) : Option GoSlice → List String
  | none => []
  | some s => readSlice st s

/-- A produced tree with every node's parent chain resolved against the
final store. -/
inductive RTree where
  | mk (order : Nat) (chain : List String) (children : List RTree)
deriving Repr

mutual
/-- Resolve one slice-level node against the final store. -/
def resolveNode (st : Store) : ANode → RTree
  | .mk o p ns => .mk o (resolvedChain st p) (resolveList st ns)

/-- Resolve a slice-level forest against the final store. -/
def resolveList (st : Store) : List ANode → List RTree
  | [] => []
  | n :: ns => resolveNode st n :: resolveList st ns
end

/-- Run the slice-level conversion on a description and resolve every
node's parent chain against the final store — the tree the caller of
`NewNodeList` actually observes. -/
def runResolved (dsc : Cdsc) : List RTree :=
  let (roots, _, st) := newNodesA dsc.Nested none 0 []
  resolveList st roots

/-- An identification block resolving to the given inventory number. -/
def invDid (inv : String) : Cdid :=
  { Cphysdesc := none, Cunittitle := [], Cunitdate := [], Cunitid := [⟨inv, "", "ABS", ""⟩] }

/-- Depth-5 leaf under the first depth-4 sibling. -/
def bugZ : Cc := .mk "c05" "file" "" (invDid "Z") none []

/-- First depth-4 sibling, inventory number "Y1", with one child. -/
def bugY1 : Cc := .mk "c04" "file" "" (invDid "Y1") none [bugZ]

/-- Second depth-4 sibling, inventory number "Y2". -/
def bugY2 : Cc := .mk "c04" "file" "" (invDid "Y2") none []

/-- Depth-3 component with two children. -/
def bugB : Cc := .mk "c03" "subseries" "" (invDid "B") none [bugY1, bugY2]

/-- Depth-2 component. -/
def bugA : Cc := .mk "c02" "series" "" (invDid "A") none [bugB]

/-- Root component. -/
def bugR : Cc := .mk "c01" "series" "" (invDid "R") none [bugA]

/-- A five-level description exhibiting the shared-backing-array
overwrite. -/
def dscBug : Cdsc := { Attrtype := "combined", Chead := [], Nested := [bugR] }

/-- C3 fails on the code: in the final returned tree of `dscBug`, the
node of order 5 (the child of the component with inventory number
"Y1") carries the parent chain `["R", "A", "B", "Y2"]` — its uncle's
inventory number — because the later sibling's in-place `append`
overwrote the shared backing array after the node was built; the chain
of its ancestors' inventory numbers is `["R", "A", "B", "Y1"]`. -/
theorem claim_C3_parent_chain_mutated :
    runResolved dscBug =
      [.mk 1 [] [.mk 2 ["R"] [.mk 3 ["R", "A"]
        [.mk 4 ["R", "A", "B"] [.mk 5 ["R", "A", "B", "Y2"] []],
         .mk 6 ["R", "A", "B"] []]]]] ∧
    (["R", "A", "B", "Y2"] : List String) ≠ ["R", "A", "B", "Y1"] :=
  ⟨rfl, by decide⟩
